import Mathlib

/-!
Verification development for the nigamp playback-completion and buffering core.

This file gives a shallow embedding of the completion-detection and buffering
logic of `src/src/audio_engine.cpp` (`DirectSoundEngine`) and of the
per-track lifecycle logic of `src/src/main.cpp` (`MusicPlayer`), together with
theorems about the testable properties of that core: single-fire of the
completion callback, no premature completion, duration-based completion,
manual-stop suppression, the completion timeout, drain-tick accounting,
atomicity of the completion observation, callback exception containment,
fresh-session resets and volume clamping.

Modelling conventions: machine integers are modelled as `Nat` (cursor and byte
arithmetic stays far below 2^32 here, and the write cursor is maintained
modulo the buffer size as in the source); PCM int16 samples are `Int` values;
C++ `float` values are modelled as exact rationals; fallible operations
return `Option` (`none` models undefined behaviour such as an out-of-bounds
`std::vector::erase`).  Each mutex-protected critical section or single atomic
access of the source is one atomic step of a step function, and concurrency is
modelled by quantifying over all interleavings (sequences of such steps).
-/

namespace Nigamp

/-- Error taxonomy of the engine, from `audio_engine.hpp`
(`enum class AudioEngineError`). -/
inductive AudioEngineError
  | SUCCESS
  | CALLBACK_EXCEPTION
  | BUFFER_UNDERRUN
  | THREADING_ERROR
  | DIRECTSOUND_FAILURE
  | CALLBACK_TIMEOUT
deriving DecidableEq, Repr

/-- State of `DirectSoundEngine::Impl` relevant to the completion and
buffering core (`audio_engine.cpp`).

The observation-only fields record what the code does rather than extra
machinery: `fired_codes` logs one entry (the error code of the
`CompletionResult`) for every actual invocation of the registered completion
callback; `logged_errors` logs every error record written at the callback
firing site — the `catch (...)` block in `fire_completion_callback`
(audio_engine.cpp:123-125) has an empty body, so nothing is ever appended
there; `hw_samples` accumulates the samples `memcpy`-ed into the DirectSound
secondary buffer.  `cb_registered` models `completion_callback != nullptr`
and `cb_throws` models a consumer-supplied handler that throws when invoked.
Defaults are the member initializers of `Impl` together with the secondary
buffer geometry produced by `create_secondary_buffer` for 44100 Hz stereo
16-bit audio (`buffer_size = sample_rate * 2` samples,
`buffer_bytes = buffer_size * channels * bytes_per_sample`). -/
structure EngineState where
  has_secondary_buffer : Bool := true
  buffer_size : Nat := 88200
  buffer_bytes : Nat := 352800
  is_playing : Bool := false
  should_stop : Bool := false
  volume : ℚ := 1
  pending : List Int := []
  write_cursor : Nat := 0
  cb_registered : Bool := false
  cb_throws : Bool := false
  eof_signaled : Bool := false
  callback_fired : Bool := false
  total_samples_processed : Nat := 0
  fired_codes : List AudioEngineError := []
  logged_errors : List AudioEngineError := []
  hw_samples : List Int := []
deriving DecidableEq, Repr

/-- Invocation of the consumer-supplied completion handler: a throwing handler
is an `Except.error`, a normal return is `Except.ok`. -/
def invoke_callback (throws : Bool) : Except Unit Unit :=
  if throws then Except.error () else Except.ok ()

/-- `DirectSoundEngine::Impl::fire_completion_callback` (audio_engine.cpp:109-127).
The body runs under `callback_mutex`.  `callback_fired.exchange(true)` always
stores `true` and yields the previous value; the callback is invoked only when
that previous value was `false` and a callback is registered.  An exception
thrown by the handler is caught by the `catch (...)` whose body is empty, so
the catch arm returns the same state and appends nothing to `logged_errors`. -/
def fire_completion_callback (error_code : AudioEngineError) (s : EngineState) :
    EngineState :=
  let old := s.callback_fired
  let s1 := { s with callback_fired := true }
  if old = false ∧ s1.cb_registered = true then
    let s2 := { s1 with fired_codes := s1.fired_codes ++ [error_code] }
    match invoke_callback s2.cb_throws with
    | Except.ok _ => s2
    | Except.error _ => s2
  else s1

/-- `DirectSoundEngine::Impl::check_completion` (audio_engine.cpp:103-107):
fires a SUCCESS completion iff end-of-stream has been signaled and the pending
sample queue is empty.  Always called with `buffer_mutex` held. -/
def check_completion (s : EngineState) : EngineState :=
  if s.eof_signaled = true ∧ s.pending.isEmpty = true then
    fire_completion_callback AudioEngineError.SUCCESS s
  else s

/-- Free-region size computation of `update_buffer` (audio_engine.cpp:164-169).
All three arguments are DWORD byte counts; `write_cursor` is maintained modulo
`buffer_bytes`, so the natural-number subtraction agrees with the DWORD
arithmetic of the source. -/
def bytes_to_write (buffer_bytes write_cursor play_cursor : Nat) : Nat :=
  if write_cursor > play_cursor then buffer_bytes - write_cursor + play_cursor
  else play_cursor - write_cursor

/-- `DirectSoundEngine::Impl::update_buffer` (audio_engine.cpp:150-208): one
drain tick, executed under `buffer_mutex`.  `play_cursor` is the hardware play
cursor reported by `GetCurrentPosition`; `b1` and `b2` are the byte sizes of
the two regions returned by `Lock` (DirectSound returns regions with
`b1 + b2 = bytes_to_write`, `b1` being the run up to the wraparound point).
A failing `GetCurrentPosition` or `Lock` makes the real tick return without
state change, i.e. an identity step, not modelled separately.

The source computes `samples_to_copy = min(pending.size(), (b1+b2)/2)` and
copies that many samples, but then advances `total_samples_processed` by
`samples_written = (b1+b2)/2` and erases `samples_written` elements from the
front of `pending_samples` (audio_engine.cpp:201-205).  When `samples_written`
exceeds the queue length, that `erase` runs past the end of the vector, which
is undefined behaviour — modelled as `none`. -/
def update_buffer (s : EngineState) (play_cursor b1 b2 : Nat) :
    Option EngineState :=
  if s.pending.isEmpty = true then some (check_completion s)
  else
    let btw := bytes_to_write s.buffer_bytes s.write_cursor play_cursor
    if btw < 1024 then some s
    else
      let samples_written := (b1 + b2) / 2
      let samples_to_copy := min s.pending.length samples_written
      if samples_written ≤ s.pending.length then
        some { s with
          hw_samples := s.hw_samples ++ s.pending.take samples_to_copy,
          total_samples_processed := s.total_samples_processed + samples_written,
          pending := s.pending.drop samples_written,
          write_cursor := (s.write_cursor + btw) % s.buffer_bytes }
      else none

/-- `std::clamp(v, lo, hi)` as used by `set_volume`. -/
def std_clamp (v lo hi : ℚ) : ℚ :=
  if v < lo then lo else if hi < v then hi else v

/-- `DirectSoundEngine::set_volume` (audio_engine.cpp:347-354): stores the
argument clamped to `[0, 1]` into the atomic `volume` (the subsequent
DirectSound attenuation call does not change the stored value). -/
def set_volume (v : ℚ) (s : EngineState) : EngineState :=
  { s with volume := std_clamp v 0 1 }

/-- `DirectSoundEngine::get_volume` (audio_engine.cpp:356-358). -/
def get_volume (s : EngineState) : ℚ :=
  s.volume

/-- `DirectSoundEngine::write_samples` (audio_engine.cpp:333-337): appends the
chunk to the pending queue under `buffer_mutex` (the C++ function always
returns `true`). -/
def write_samples (buffer : List Int) (s : EngineState) : EngineState :=
  { s with pending := s.pending ++ buffer }

/-- `DirectSoundEngine::start` (audio_engine.cpp:241-262).  Returns the C++
result together with the post state: without a secondary buffer or when
`Play` fails the function returns `false` with no state reset; on success it
resets the per-session completion state (`eof_signaled`, `callback_fired`,
`total_samples_processed`), records the engine start time and starts the
playback thread.  `play_ok` models the HRESULT of `Play`. -/
def start (s : EngineState) (play_ok : Bool) : Bool × EngineState :=
  if s.has_secondary_buffer = false then (false, s)
  else if play_ok = false then (false, s)
  else (true, { s with
    eof_signaled := false,
    callback_fired := false,
    total_samples_processed := 0,
    is_playing := true,
    should_stop := false })

/-- One atomic step of the engine during a Track Session, as issued by the
decode/feed thread, the engine playback thread and `signal_eof` callers.
`DirectSoundEngine::signal_eof` (audio_engine.cpp:365-371) first performs the
atomic store `eof_signaled = true` and only then takes `buffer_mutex` and runs
`check_completion`, so it contributes two separate atomic steps
(`set_eof_flag` then `drain_check`). -/
inductive EngOp
  | set_eof_flag
  | drain_check
  | tick (play_cursor b1 b2 : Nat)
  | push (chunk : List Int)
  | set_vol (v : ℚ)
deriving Repr

/-- Step function for `EngOp`: each constructor is one critical section or one
atomic access of the source. -/
def eng_step (s : EngineState) : EngOp → Option EngineState
  | EngOp.set_eof_flag => some { s with eof_signaled := true }
  | EngOp.drain_check => some (check_completion s)
  | EngOp.tick play_cursor b1 b2 => update_buffer s play_cursor b1 b2
  | EngOp.push chunk => some (write_samples chunk s)
  | EngOp.set_vol v => some (set_volume v s)

/-- Runs a sequence of engine steps; `none` as soon as one step hits undefined
behaviour. -/
def eng_run (s : EngineState) : List EngOp → Option EngineState
  | [] => some s
  | op :: ops =>
    match eng_step s op with
    | none => none
    | some s1 => eng_run s1 ops

/-- A completion trigger in state `s`: end-of-stream has been signaled, the
pending queue is empty, and the operation is one that evaluates
`check_completion` (the locked check of `signal_eof`, or a drain tick, which
checks completion exactly when the pending queue is empty). -/
def is_trigger (s : EngineState) (op : EngOp) : Prop :=
  s.eof_signaled = true ∧ s.pending = [] ∧
    (op = EngOp.drain_check ∨ ∃ p b1 b2, op = EngOp.tick p b1 b2)

/-- One-shot invariant of a Track Session: the callback is registered, and
either nothing has fired yet, or the single SUCCESS invocation has happened. -/
def fire_inv (s : EngineState) : Prop :=
  s.cb_registered = true ∧
    ((s.callback_fired = false ∧ s.fired_codes = []) ∨
     (s.callback_fired = true ∧ s.fired_codes = [AudioEngineError.SUCCESS]))

/-! Fine-grained interleaving model of the completion observation.

For the atomic-observation property the two reads inside `check_completion`
must not be coalesced into one step, so this model splits the source into its
individual atomic accesses and represents `buffer_mutex` explicitly.  The
in-scope accesses and their source lines are: the relaxed atomic store
`eof_signaled = true` of `signal_eof` (audio_engine.cpp:366, performed
without the lock); the atomic load `eof_signaled.load()` and the read
`pending_samples.empty()` inside `check_completion` (audio_engine.cpp:104),
both performed while the caller holds `buffer_mutex`; the guarded one-shot
exchange plus callback invocation of `fire_completion_callback`
(still inside the same critical section — `callback_mutex` is nested inside
it); and the queue append of `write_samples` (audio_engine.cpp:333-337),
which also takes `buffer_mutex`. -/

/-- One atomic access of the fine-grained model. -/
inductive Act
  | acquire
  | release
  | set_eof_store
  | read_eof
  | read_empty
  | fire_step
  | push_act (chunk : List Int)
deriving DecidableEq, Repr

/-- A thread: its remaining program and the thread-local values it has read
(the results of the two loads inside `check_completion`). -/
structure ThreadSt where
  prog : List Act
  reg_eof : Bool := false
  reg_empty : Bool := false
deriving DecidableEq, Repr

/-- Shared state plus all threads.  `fire_log` records, for every actual
callback invocation, the pair (current `eof_signaled`, current emptiness of
the pending queue) at the very moment of the invocation. -/
structure Conf where
  lock : Option Nat
  eof : Bool
  pending : List Int
  fired : Bool
  cb_registered : Bool
  fire_log : List (Bool × Bool)
  threads : List ThreadSt
deriving DecidableEq, Repr

/-- The locked part common to `signal_eof` and the empty-queue branch of
`update_buffer`: take `buffer_mutex`, read `eof_signaled`, read
`pending_samples.empty()`, run the guarded fire, release. -/
def checker_prog : List Act :=
  [Act.acquire, Act.read_eof, Act.read_empty, Act.fire_step, Act.release]

/-- `DirectSoundEngine::signal_eof` (audio_engine.cpp:365-371): the unlocked
atomic store followed by the locked completion check. -/
def signal_eof_prog : List Act :=
  Act.set_eof_store :: checker_prog

/-- `DirectSoundEngine::write_samples` (audio_engine.cpp:333-337). -/
def pusher_prog (chunk : List Int) : List Act :=
  [Act.acquire, Act.push_act chunk, Act.release]

/-- Effect of one action of thread `i` whose thread state is `t` and whose
remaining program after the action is `rest`.  Lock-protected accesses are
only enabled while thread `i` holds the lock; an `acquire` is only enabled
when the lock is free (a blocked thread simply is not scheduled). -/
def do_act (c : Conf) (i : Nat) (t : ThreadSt) (a : Act) (rest : List Act) :
    Option Conf :=
  match a with
  | Act.acquire =>
    if c.lock = none then
      some { c with lock := some i, threads := c.threads.set i { t with prog := rest } }
    else none
  | Act.release =>
    if c.lock = some i then
      some { c with lock := none, threads := c.threads.set i { t with prog := rest } }
    else none
  | Act.set_eof_store =>
    some { c with eof := true, threads := c.threads.set i { t with prog := rest } }
  | Act.read_eof =>
    if c.lock = some i then
      some { c with threads := c.threads.set i { t with prog := rest, reg_eof := c.eof } }
    else none
  | Act.read_empty =>
    if c.lock = some i then
      some { c with threads := c.threads.set i { t with prog := rest, reg_empty := c.pending.isEmpty } }
    else none
  | Act.fire_step =>
    if c.lock = some i then
      if t.reg_eof = true ∧ t.reg_empty = true then
        some { c with
          fired := true,
          fire_log :=
            if c.fired = false ∧ c.cb_registered = true then
              c.fire_log ++ [(c.eof, c.pending.isEmpty)]
            else c.fire_log,
          threads := c.threads.set i { t with prog := rest } }
      else
        some { c with threads := c.threads.set i { t with prog := rest } }
    else none
  | Act.push_act chunk =>
    if c.lock = some i then
      some { c with pending := c.pending ++ chunk,
                    threads := c.threads.set i { t with prog := rest } }
    else none

/-- Scheduler step: thread `i` executes the next action of its program. -/
def conf_step (c : Conf) (i : Nat) : Option Conf :=
  match c.threads[i]? with
  | none => none
  | some t =>
    match t.prog with
    | [] => none
    | a :: rest => do_act c i t a rest

/-- Executes a schedule (one thread index per step); `none` on an invalid
step (blocked thread or finished thread scheduled). -/
def run_sched (c : Conf) : List Nat → Option Conf
  | [] => some c
  | i :: sched =>
    match conf_step c i with
    | none => none
    | some c1 => run_sched c1 sched

/-- A thread program that can occur in this protocol: a suffix of
`signal_eof_prog` (which includes all suffixes of `checker_prog`) or of some
`pusher_prog chunk`. -/
def prog_ok (p : List Act) : Prop :=
  p <:+ signal_eof_prog ∨ ∃ chunk, p <:+ pusher_prog chunk

/-- System invariant: every logged invocation observed both facts truthfully,
an observed end-of-stream is a true end-of-stream (the flag is monotone), and
a thread that has observed emptiness and has not yet run its fire step still
holds the lock while the queue is still truly empty. -/
def conf_inv (c : Conf) : Prop :=
  (∀ pr ∈ c.fire_log, pr = (true, true)) ∧
  ∀ i t, c.threads[i]? = some t →
    prog_ok t.prog ∧
    (t.reg_eof = true → c.eof = true) ∧
    (t.reg_empty = true → Act.fire_step ∈ t.prog → c.lock = some i ∧ c.pending = [])

/-- A fresh thread about to run program `p`. -/
def init_thread (p : List Act) : ThreadSt :=
  { prog := p }

/-- Initial configuration of one Track Session in the fine-grained model:
`n_sig` threads calling `signal_eof`, `n_chk` drain threads reaching the
empty-queue completion check, one pusher per chunk of `pushes`, with the
session-fresh shared state (callback registered, nothing fired). -/
def init_conf (n_sig n_chk : Nat) (pushes : List (List Int))
    (pending0 : List Int) : Conf :=
  { lock := none,
    eof := false,
    pending := pending0,
    fired := false,
    cb_registered := true,
    fire_log := [],
    threads :=
      List.replicate n_sig (init_thread signal_eof_prog) ++
      List.replicate n_chk (init_thread checker_prog) ++
      pushes.map (fun chunk => init_thread (pusher_prog chunk)) }

/-! Player-level models from `src/src/main.cpp` (`MusicPlayer`). -/

/-- Result of one decoder interaction inside the playback loop
(main.cpp:1078-1087): `chunk sz` models `decode` returning `true` with `sz`
samples; `eof_silence` models `decode` returning `false` with `is_eof()`
true, in which case the loop feeds a silence chunk of exactly `buffer_size`
zero samples; `failure` models `decode` returning `false` without EOF, which
breaks the loop (hard decode error). -/
inductive DecodeStep
  | chunk (size : Nat)
  | eof_silence
  | failure
deriving DecidableEq, Repr

/-- One chunk fed to the audio engine by the playback loop: at which loop
iteration, at which elapsed wall-clock time since `m_playback_start_time`
(milliseconds), whether it was a silence chunk, and its sample count. -/
structure FeedEvent where
  iter : Nat
  elapsed_ms : Nat
  silence : Bool
  size : Nat
deriving DecidableEq, Repr

/-- How and when the playback loop of `MusicPlayer::playback_loop` exited:
the iteration index, the elapsed time at exit, whether the exit was the
duration-based break (main.cpp:1043-1046) as opposed to the hard decode error
break (main.cpp:1086), and the chunks fed before exiting. -/
structure LoopExit where
  exit_iter : Nat
  exit_elapsed_ms : Nat
  by_duration : Bool
  feeds : List FeedEvent
deriving DecidableEq, Repr

/-- The while loop of `MusicPlayer::playback_loop` (main.cpp:1024-1091) for a
session without manual stop, quit, pause or preview mode, with
`m_use_duration_based_completion = true` (its constant value, main.cpp:616).
`clock j` is the elapsed wall-clock time in milliseconds since
`m_playback_start_time` at the duration check of iteration `j`; `dec j` is
the decoder's behaviour at iteration `j`.  Each iteration first evaluates the
duration condition (only when the known duration is positive, per the guard
at main.cpp:1026) and breaks when the elapsed time has reached the duration;
otherwise it feeds one chunk — a silence chunk of `buf_size` zeros when the
decoder is at EOF — and continues.  The fuel bounds the number of
iterations; `none` means the bound was hit. -/
def playback_loop_iter (duration_ms : Nat) (clock : Nat → Nat)
    (dec : Nat → DecodeStep) (buf_size : Nat) :
    Nat → Nat → Option LoopExit
  | _, 0 => none
  | i, fuel + 1 =>
    if 0 < duration_ms ∧ duration_ms ≤ clock i then
      some { exit_iter := i, exit_elapsed_ms := clock i, by_duration := true, feeds := [] }
    else
      match dec i with
      | DecodeStep.failure =>
        some { exit_iter := i, exit_elapsed_ms := clock i, by_duration := false, feeds := [] }
      | DecodeStep.chunk sz =>
        match playback_loop_iter duration_ms clock dec buf_size (i + 1) fuel with
        | none => none
        | some r =>
          some { r with feeds := { iter := i, elapsed_ms := clock i, silence := false, size := sz } :: r.feeds }
      | DecodeStep.eof_silence =>
        match playback_loop_iter duration_ms clock dec buf_size (i + 1) fuel with
        | none => none
        | some r =>
          some { r with feeds := { iter := i, elapsed_ms := clock i, silence := true, size := buf_size } :: r.feeds }

/-- The post-loop advancement step of `playback_loop` (main.cpp:1100-1103)
with `m_use_duration_based_completion = true`: `m_advance_to_next` is set iff
`m_stop_playback` was observed false; the first argument is the observed
stop flag, the second the current advance flag. -/
def after_loop_advance (stop_flag advance : Bool) : Bool :=
  if stop_flag = false then true else advance

/-- Combined player/engine state for the manual-stop analysis: the engine
completion fields together with the `MusicPlayer` flags `m_advance_to_next`,
`m_stop_playback` and `m_timeout_active`. -/
structure StopRaceSt where
  eof : Bool := false
  fired : Bool := false
  pending : List Int := []
  cb_registered : Bool := true
  advance : Bool := false
  stop_flag : Bool := false
  timeout_active : Bool := false
deriving DecidableEq, Repr

/-- Atomic events of the manual-stop scenario.  The `stop_*` events are the
opening stores of `MusicPlayer::stop_current_song` (main.cpp:960, 961, 969),
issued by the control thread; the `loop_*` events are what the playback
thread does once it observes the stop flag: its loop condition reads
`m_stop_playback` and exits (main.cpp:1024), it calls
`m_audio_engine->signal_eof()` (main.cpp:1096) — which, with an empty
pending queue, fires the SUCCESS completion whose registered callback
`handle_playback_completion` (main.cpp:781-795) clears `m_timeout_active`
and sets `m_advance_to_next` — and finally runs the guarded advancement
check (main.cpp:1100-1107). -/
inductive StopRaceEv
  | stop_deactivate_timeout
  | stop_clear_advance
  | stop_set_flag
  | loop_observe_stop
  | loop_signal_eof
  | loop_final_check
deriving DecidableEq, Repr

/-- Step function of the manual-stop scenario; each event is one atomic store
or one lock-protected critical section of the source. -/
def stop_race_step (s : StopRaceSt) : StopRaceEv → StopRaceSt
  | StopRaceEv.stop_deactivate_timeout => { s with timeout_active := false }
  | StopRaceEv.stop_clear_advance => { s with advance := false }
  | StopRaceEv.stop_set_flag => { s with stop_flag := true }
  | StopRaceEv.loop_observe_stop => s
  | StopRaceEv.loop_signal_eof =>
    let s1 := { s with eof := true }
    if s1.eof = true ∧ s1.pending = [] then
      if s1.fired = false ∧ s1.cb_registered = true then
        { s1 with fired := true, timeout_active := false, advance := true }
      else { s1 with fired := true }
    else s1
  | StopRaceEv.loop_final_check =>
    if s.stop_flag = false then { s with advance := true } else s

/-- Executes a sequence of manual-stop scenario events. -/
def stop_race_run (s : StopRaceSt) (evs : List StopRaceEv) : StopRaceSt :=
  evs.foldl stop_race_step s

/-- The interleaving realised during a manual stop of a track whose engine
queue is already drained: `stop_current_song` performs its three opening
stores, then the playback thread observes the flag, exits its loop, and runs
its exit sequence while `stop_current_song` is blocked in `join`. -/
def stop_race_trace : List StopRaceEv :=
  [StopRaceEv.stop_deactivate_timeout, StopRaceEv.stop_clear_advance,
   StopRaceEv.stop_set_flag, StopRaceEv.loop_observe_stop,
   StopRaceEv.loop_signal_eof, StopRaceEv.loop_final_check]

/-- `COMPLETION_TIMEOUT_SECONDS` (main.cpp:611). -/
def COMPLETION_TIMEOUT_SECONDS : Nat := 3

/-- `MusicPlayer` state relevant to the completion timeout: the
`m_timeout_active` and `m_advance_to_next` flags, the list of
`CompletionResult` error codes delivered to `handle_playback_completion`,
and the number of timeout warnings written to `stderr`. -/
structure TimeoutSt where
  timeout_active : Bool := false
  advance : Bool := false
  completions : List AudioEngineError := []
  warnings : Nat := 0
deriving DecidableEq, Repr

/-- `MusicPlayer::start_completion_timeout` (main.cpp:760-779): records the
EOF time, sets `m_timeout_active`, joins any previous timeout thread and
spawns the countdown thread. -/
def start_completion_timeout (s : TimeoutSt) : TimeoutSt :=
  { s with timeout_active := true }

/-- Body of the timeout thread after its `COMPLETION_TIMEOUT_SECONDS` sleep
(main.cpp:770-777): if `m_timeout_active` is still set it prints a warning,
sets `m_advance_to_next` and clears `m_timeout_active`; it delivers no
`CompletionResult`. -/
def timeout_thread_body (s : TimeoutSt) : TimeoutSt :=
  if s.timeout_active = true then
    { s with warnings := s.warnings + 1, advance := true, timeout_active := false }
  else s

/-- `MusicPlayer::handle_playback_completion` (main.cpp:781-795): the
completion callback — cancels the timeout, records the result and requests
track advancement. -/
def handle_playback_completion (code : AudioEngineError) (s : TimeoutSt) :
    TimeoutSt :=
  { s with timeout_active := false, completions := s.completions ++ [code], advance := true }

/-- `MusicPlayer` state relevant to session setup: `m_playback_start_time`
(absent until set), the known song duration, the player volume and the
engine. -/
structure PlayerSt where
  playback_start_time : Option Nat := none
  song_duration_ms : Nat := 0
  volume : ℚ := 4 / 5
  engine : EngineState := {}
  thread_spawned : Bool := false
deriving DecidableEq, Repr

/-- `MusicPlayer::play_current_song` (main.cpp:909-955): reads the decoder
duration, initializes the engine, registers the completion callback, sets
the volume, starts the engine and — only if `start` succeeded — spawns the
playback thread.  `m_playback_start_time` is deliberately not assigned here
(comment at main.cpp:952); it is assigned inside `playback_loop`. -/
def play_current_song (p : PlayerSt) (dec_duration_ms : Nat) (play_ok : Bool) :
    PlayerSt :=
  let e1 := { p.engine with cb_registered := true }
  let e2 := set_volume p.volume e1
  match start e2 play_ok with
  | (false, e3) => { p with song_duration_ms := dec_duration_ms, engine := e3 }
  | (true, e3) =>
    { p with song_duration_ms := dec_duration_ms, engine := e3, thread_spawned := true }

/-- The first effect of `MusicPlayer::playback_loop` (main.cpp:1018): the
playback start instant is recorded when feeding begins, before the first
loop iteration. -/
def playback_loop_enter (p : PlayerSt) (now_ms : Nat) : PlayerSt :=
  { p with playback_start_time := some now_ms }

/-! Concrete instances used to evaluate the theorems below on closed inputs. -/

/-- A freshly started engine session with a registered callback. -/
def c1_initial : EngineState := { cb_registered := true }

/-- Five-ish threads racing `signal_eof` and drain checks reduce, as atomic
steps, to an interleaving such as this one: the EOF store followed by two
completion checks. -/
def c1_ops : List EngOp := [EngOp.set_eof_flag, EngOp.drain_check, EngOp.drain_check]

/-- State after the EOF store of `c1_ops`. -/
def c1_mid : EngineState := { cb_registered := true, eof_signaled := true }

/-- Final state of `c1_ops`: exactly one SUCCESS invocation. -/
def c1_final : EngineState :=
  { cb_registered := true, eof_signaled := true, callback_fired := true,
    fired_codes := [AudioEngineError.SUCCESS] }

/-- A 10 ms-per-iteration clock. -/
def c2_clock : Nat → Nat := fun j => j * 10

/-- A decoder that produces one real chunk and is at EOF from then on. -/
def c2_dec : Nat → DecodeStep :=
  fun j => if j = 0 then DecodeStep.chunk 80 else DecodeStep.eof_silence

/-- Loop result for duration 30 ms, `c2_clock`, `c2_dec` and buffer size 100:
exit via the duration break at iteration 3, after one decoded chunk and two
silence chunks. -/
def c2_result : LoopExit :=
  { exit_iter := 3, exit_elapsed_ms := 30, by_duration := true,
    feeds := [{ iter := 0, elapsed_ms := 0, silence := false, size := 80 },
              { iter := 1, elapsed_ms := 10, silence := true, size := 100 },
              { iter := 2, elapsed_ms := 20, silence := true, size := 100 }] }

/-- A session state with EOF signaled but one sample still pending. -/
def c3_state : EngineState :=
  { cb_registered := true, eof_signaled := true, pending := [3] }

/-- An armed completion timeout. -/
def c5_state : TimeoutSt := { timeout_active := true }

/-- Ten pending samples: fewer than a 2048-byte (1024-sample) free region. -/
def c6_chunk : List Int := [1, 2, 3, 4, 5, 6, 7, 8, 9, 10]

/-- Schedule running the single `signal_eof` thread of
`init_conf 1 1 [[7]] []` to completion. -/
def c7_sched : List Nat := [0, 0, 0, 0, 0, 0]

/-- Resulting configuration of `c7_sched`: one invocation, logged with both
facts observed truthfully. -/
def c7_final : Conf :=
  { lock := none, eof := true, pending := [], fired := true,
    cb_registered := true, fire_log := [(true, true)],
    threads := [{ prog := [], reg_eof := true, reg_empty := true },
                init_thread checker_prog, init_thread (pusher_prog [7])] }

/-- A fresh session whose registered completion handler throws. -/
def c8_throwing_state : EngineState := { cb_registered := true, cb_throws := true }

/-- A volume call with an out-of-range argument followed by unrelated engine
operations. -/
def c10_ops : List EngOp :=
  [EngOp.set_vol (-2), EngOp.push [1], EngOp.set_eof_flag]

/-- Final state of `c10_ops` from the default state. -/
def c10_final : EngineState :=
  { volume := 0, pending := [1], eof_signaled := true }

/-! Helper lemmas about the engine step functions. -/

/-- Closed form of `fire_completion_callback`: the exchange always sets
`callback_fired`; the invocation is appended exactly when the exchange won
and a callback is registered; the throwing/non-throwing handler makes no
difference because the catch arm is empty. -/
theorem fire_completion_callback_eq (c : AudioEngineError) (s : EngineState) :
    fire_completion_callback c s =
      if s.callback_fired = false ∧ s.cb_registered = true then
        { s with callback_fired := true, fired_codes := s.fired_codes ++ [c] }
      else { s with callback_fired := true } := by
  unfold fire_completion_callback invoke_callback
  cases hb : s.cb_throws <;> simp [hb]

/-- The completion check never changes the pending queue, the EOF flag, the
registration flag, the error log, the volume, or the cumulative counters. -/
theorem check_completion_frame (s : EngineState) :
    (check_completion s).pending = s.pending ∧
    (check_completion s).eof_signaled = s.eof_signaled ∧
    (check_completion s).cb_registered = s.cb_registered ∧
    (check_completion s).logged_errors = s.logged_errors ∧
    (check_completion s).volume = s.volume ∧
    (check_completion s).total_samples_processed = s.total_samples_processed := by
  unfold check_completion
  rw [fire_completion_callback_eq]
  split_ifs <;> simp

/-- The completion check either leaves the invocation log unchanged or — only
with EOF signaled and an empty queue — appends the single SUCCESS entry. -/
theorem check_completion_codes (s : EngineState) :
    (check_completion s).fired_codes = s.fired_codes ∨
      (s.eof_signaled = true ∧ s.pending = [] ∧
       (check_completion s).fired_codes = s.fired_codes ++ [AudioEngineError.SUCCESS]) := by
  unfold check_completion
  rw [fire_completion_callback_eq]
  split_ifs with h1 h2
  · exact Or.inr ⟨h1.1, List.isEmpty_iff.mp h1.2, by simp⟩
  · exact Or.inl (by simp)
  · exact Or.inl rfl

/-- Once the one-shot exchange has happened, no engine step invokes the
callback again or resets the exchange flag. -/
theorem eng_step_sticky (s s' : EngineState) (op : EngOp)
    (hf : s.callback_fired = true) (hs : eng_step s op = some s') :
    s'.callback_fired = true ∧ s'.fired_codes = s.fired_codes := by
  have hcheck : (check_completion s).callback_fired = true ∧
      (check_completion s).fired_codes = s.fired_codes := by
    unfold check_completion
    rw [fire_completion_callback_eq]
    split_ifs with h1 h2
    · exact absurd h2.1 (by simp [hf])
    · simp
    · simp_all
  cases op with
  | set_eof_flag =>
    simp only [eng_step, Option.some.injEq] at hs
    subst hs; exact ⟨hf, rfl⟩
  | drain_check =>
    simp only [eng_step, Option.some.injEq] at hs
    subst hs; exact hcheck
  | tick play_cursor b1 b2 =>
    simp only [eng_step, update_buffer] at hs
    split_ifs at hs with h1 h2 h3
    · simp only [Option.some.injEq] at hs; subst hs; exact hcheck
    · simp only [Option.some.injEq] at hs; subst hs; exact ⟨hf, rfl⟩
    · simp only [Option.some.injEq] at hs; subst hs; exact ⟨hf, rfl⟩
  | push chunk =>
    simp only [eng_step, Option.some.injEq] at hs
    subst hs; exact ⟨hf, rfl⟩
  | set_vol v =>
    simp only [eng_step, Option.some.injEq] at hs
    subst hs; exact ⟨hf, rfl⟩

/-- Run-level version of `eng_step_sticky`. -/
theorem eng_run_sticky (s sF : EngineState) (ops : List EngOp)
    (hf : s.callback_fired = true) (hrun : eng_run s ops = some sF) :
    sF.callback_fired = true ∧ sF.fired_codes = s.fired_codes := by
  induction ops generalizing s with
  | nil =>
    unfold eng_run at hrun
    injection hrun with h; subst h; exact ⟨hf, rfl⟩
  | cons op ops ih =>
    unfold eng_run at hrun
    cases hstep : eng_step s op with
    | none => rw [hstep] at hrun; exact absurd hrun (by simp)
    | some s1 =>
      rw [hstep] at hrun
      obtain ⟨hf1, hc1⟩ := eng_step_sticky s s1 op hf hstep
      obtain ⟨hfF, hcF⟩ := ih s1 hf1 hrun
      exact ⟨hfF, hc1 ▸ hcF⟩

/-- `std_clamp` into `[0, 1]` is bounded. -/
theorem std_clamp_bounds (v : ℚ) : 0 ≤ std_clamp v 0 1 ∧ std_clamp v 0 1 ≤ 1 := by
  unfold std_clamp
  split_ifs with h1 h2
  · norm_num
  · norm_num
  · constructor <;> linarith [not_lt.mp h1, not_lt.mp h2]

/-- Every engine step keeps the stored volume inside `[0, 1]`. -/
theorem eng_step_volume_bounds (s s' : EngineState) (op : EngOp)
    (h0 : 0 ≤ s.volume) (h1 : s.volume ≤ 1) (hs : eng_step s op = some s') :
    0 ≤ s'.volume ∧ s'.volume ≤ 1 := by
  cases op with
  | set_eof_flag =>
    simp only [eng_step, Option.some.injEq] at hs
    subst hs; exact ⟨h0, h1⟩
  | drain_check =>
    simp only [eng_step, Option.some.injEq] at hs
    subst hs
    rw [(check_completion_frame s).2.2.2.2.1]
    exact ⟨h0, h1⟩
  | tick play_cursor b1 b2 =>
    simp only [eng_step, update_buffer] at hs
    split_ifs at hs with hc1 hc2 hc3
    · simp only [Option.some.injEq] at hs
      subst hs
      rw [(check_completion_frame s).2.2.2.2.1]
      exact ⟨h0, h1⟩
    · simp only [Option.some.injEq] at hs; subst hs; exact ⟨h0, h1⟩
    · simp only [Option.some.injEq] at hs; subst hs; exact ⟨h0, h1⟩
  | push chunk =>
    simp only [eng_step, write_samples, Option.some.injEq] at hs
    subst hs; exact ⟨h0, h1⟩
  | set_vol v =>
    simp only [eng_step, set_volume, Option.some.injEq] at hs
    subst hs
    exact std_clamp_bounds v

/-- Run-level volume invariant. -/
theorem eng_run_volume_bounds (s0 sF : EngineState) (ops : List EngOp)
    (h0 : 0 ≤ s0.volume) (h1 : s0.volume ≤ 1) (hrun : eng_run s0 ops = some sF) :
    0 ≤ sF.volume ∧ sF.volume ≤ 1 := by
  induction ops generalizing s0 with
  | nil =>
    unfold eng_run at hrun
    injection hrun with h; subst h; exact ⟨h0, h1⟩
  | cons op ops ih =>
    unfold eng_run at hrun
    cases hstep : eng_step s0 op with
    | none => rw [hstep] at hrun; exact absurd hrun (by simp)
    | some s1 =>
      rw [hstep] at hrun
      obtain ⟨g0, g1⟩ := eng_step_volume_bounds s0 s1 op h0 h1 hstep
      exact ih s1 g0 g1 hrun

/-- C10: volume clamping at the public interface.  For every argument `v`,
after `set_volume v` the stored volume equals `v` clamped to `[0, 1]`
(out-of-range inputs are silently clamped, not rejected), and over any run of
engine operations starting from a state whose volume is in range — the
initial volume is `1.0f` — `get_volume` returns a value in `[0, 1]`. -/
theorem set_volume_clamps_to_unit_range (v : ℚ) (s s0 sF : EngineState)
    (ops : List EngOp) (h0 : 0 ≤ s0.volume) (h1 : s0.volume ≤ 1)
    (hrun : eng_run s0 ops = some sF) :
    (set_volume v s).volume = std_clamp v 0 1
    ∧ 0 ≤ get_volume (set_volume v s) ∧ get_volume (set_volume v s) ≤ 1
    ∧ 0 ≤ get_volume sF ∧ get_volume sF ≤ 1 := by
  obtain ⟨b0, b1⟩ := std_clamp_bounds v
  obtain ⟨r0, r1⟩ := eng_run_volume_bounds s0 sF ops h0 h1 hrun
  exact ⟨rfl, b0, b1, r0, r1⟩

/-- C10 witness: evaluation of the claim on the concrete run `c10_ops`,
whose `set_vol` argument `-3/2` is clamped to `0`. -/
theorem set_volume_clamps_to_unit_range_witness :
    eng_run {} c10_ops = some c10_final
    ∧ ((set_volume 2 ({} : EngineState)).volume = std_clamp 2 0 1
       ∧ 0 ≤ get_volume (set_volume 2 ({} : EngineState))
       ∧ get_volume (set_volume 2 ({} : EngineState)) ≤ 1
       ∧ 0 ≤ get_volume c10_final ∧ get_volume c10_final ≤ 1) := by
  refine ⟨by decide, ?_⟩
  exact set_volume_clamps_to_unit_range 2 {} {} c10_final c10_ops
    (by decide) (by decide) (by decide)

/-- C3: no premature fire at engine level.  A single engine step from a state
whose pending queue is non-empty never invokes the completion callback, and
any step that does extend the invocation log does so with exactly one SUCCESS
entry, from a state with `eof_signaled` true and an empty pending queue. -/
theorem no_premature_fire (s s' : EngineState) (op : EngOp)
    (hstep : eng_step s op = some s') :
    (s.pending ≠ [] → s'.fired_codes = s.fired_codes)
    ∧ (s'.fired_codes ≠ s.fired_codes →
        s.eof_signaled = true ∧ s.pending = [] ∧
        s'.fired_codes = s.fired_codes ++ [AudioEngineError.SUCCESS]) := by
  cases op with
  | set_eof_flag =>
    simp only [eng_step, Option.some.injEq] at hstep
    subst hstep
    exact ⟨fun _ => rfl, fun h => absurd rfl h⟩
  | drain_check =>
    simp only [eng_step, Option.some.injEq] at hstep
    subst hstep
    rcases check_completion_codes s with h | ⟨he, hp, hc⟩
    · exact ⟨fun _ => h, fun hne => absurd h hne⟩
    · refine ⟨fun hne => absurd hp hne, fun _ => ⟨he, hp, hc⟩⟩
  | tick play_cursor b1 b2 =>
    simp only [eng_step, update_buffer] at hstep
    split_ifs at hstep with hc1 hc2 hc3
    · simp only [Option.some.injEq] at hstep
      subst hstep
      have hp0 : s.pending = [] := List.isEmpty_iff.mp hc1
      rcases check_completion_codes s with h | ⟨he, hp, hc⟩
      · exact ⟨fun _ => h, fun hne => absurd h hne⟩
      · exact ⟨fun hne => absurd hp0 hne, fun _ => ⟨he, hp, hc⟩⟩
    · simp only [Option.some.injEq] at hstep
      subst hstep
      exact ⟨fun _ => rfl, fun h => absurd rfl h⟩
    · simp only [Option.some.injEq] at hstep
      subst hstep
      exact ⟨fun _ => rfl, fun h => absurd rfl h⟩
  | push chunk =>
    simp only [eng_step, write_samples, Option.some.injEq] at hstep
    subst hstep
    exact ⟨fun _ => rfl, fun h => absurd rfl h⟩
  | set_vol v =>
    simp only [eng_step, set_volume, Option.some.injEq] at hstep
    subst hstep
    exact ⟨fun _ => rfl, fun h => absurd rfl h⟩

/-- C3 witness: with EOF signaled but one pending sample, the drain-side
completion check is a no-op. -/
theorem no_premature_fire_witness :
    eng_step c3_state EngOp.drain_check = some c3_state
    ∧ ((c3_state.pending ≠ [] → c3_state.fired_codes = c3_state.fired_codes)
       ∧ (c3_state.fired_codes ≠ c3_state.fired_codes →
           c3_state.eof_signaled = true ∧ c3_state.pending = [] ∧
           c3_state.fired_codes = c3_state.fired_codes ++ [AudioEngineError.SUCCESS])) := by
  refine ⟨by decide, ?_⟩
  exact no_premature_fire c3_state c3_state EngOp.drain_check (by decide)

/-- C9: fresh-session reset.  A successful `DirectSoundEngine::start` leaves
`eof_signaled` and `callback_fired` false; `play_current_song` (engine setup)
never assigns the playback start instant, which is set only by the first
effect of `playback_loop`, before any feeding. -/
theorem fresh_session_reset (s : EngineState) (ok : Bool)
    (hok : (start s ok).1 = true) :
    ((start s ok).2).eof_signaled = false
    ∧ ((start s ok).2).callback_fired = false
    ∧ (∀ p d oo, (play_current_song p d oo).playback_start_time = p.playback_start_time)
    ∧ (∀ p now_ms, (playback_loop_enter p now_ms).playback_start_time = some now_ms) := by
  refine ⟨?_, ?_, ?_, fun p now_ms => rfl⟩
  · unfold start at hok ⊢
    split_ifs at hok ⊢ <;> simp_all
  · unfold start at hok ⊢
    split_ifs at hok ⊢ <;> simp_all
  · intro p d oo
    simp only [play_current_song]
    split <;> rfl

/-- C9 witness: evaluation at the default state with a successful `Play`. -/
theorem fresh_session_reset_witness :
    ((start {} true).2).eof_signaled = false
    ∧ ((start {} true).2).callback_fired = false
    ∧ (∀ p d oo, (play_current_song p d oo).playback_start_time = p.playback_start_time)
    ∧ (∀ p now_ms, (playback_loop_enter p now_ms).playback_start_time = some now_ms) :=
  fresh_session_reset {} true (by decide)

/-- C6: evaluation of the drain tick at a reachable failing input.  From a
fresh session, push ten samples, then run one drain tick with hardware play
cursor 2048 and write cursor 0: `Lock` yields a 2048-byte region (`b1 = 2048`,
`b2 = 0`), so `samples_written = 1024` although only 10 samples were pending
and copied; `pending_samples.erase(begin, begin + 1024)` runs past the end of
the 10-element vector (undefined behaviour, modelled as `none`), and
`total_samples_processed` would advance by 1024, not by the 10 samples
actually written. -/
theorem drain_erase_out_of_bounds :
    eng_run ({ cb_registered := true } : EngineState)
      [EngOp.push c6_chunk, EngOp.tick 2048 2048 0] = none := by decide

/-- C4: evaluation of the manual-stop race at its failing interleaving.
After `stop_current_song` has executed its three opening stores — so the
Manual-Stop Flag is set (first conjunct) — the playback thread observes the
flag, exits its loop, and calls `signal_eof`; with the engine queue already
drained, the SUCCESS completion fires and its registered callback sets
`m_advance_to_next` (second and third conjuncts), even though
`m_stop_playback` is set: an automatic completion fires after the
Manual-Stop Flag was set, and `stop_current_song` never clears the advance
flag again. -/
theorem manual_stop_completion_fires_after_flag :
    (stop_race_run {} (stop_race_trace.take 3)).stop_flag = true
    ∧ (stop_race_run {} stop_race_trace).advance = true
    ∧ (stop_race_run {} stop_race_trace).fired = true := by decide

/-- C5 counterexample: arming the completion timeout and letting its
countdown expire forces the track advance flag but delivers no
`CompletionResult` at all — the list of completion results stays empty, so
the forced completion does not carry the `CALLBACK_TIMEOUT` result code the
claim describes (no firing site in the source ever uses that code). -/
theorem timeout_fires_without_result_code :
    (timeout_thread_body (start_completion_timeout {})).advance = true
    ∧ (timeout_thread_body (start_completion_timeout {})).completions = []
    ∧ AudioEngineError.CALLBACK_TIMEOUT ∉
        (timeout_thread_body (start_completion_timeout {})).completions := by decide

/-- C5 (amended): if the 3-second countdown elapses with `m_timeout_active`
still set, the timeout thread forces track advancement by setting
`m_advance_to_next` and printing one warning — producing no
`CompletionResult` and no error code — and it does so only once: it clears
`m_timeout_active`, so a repeated expiry is a no-op. -/
theorem timeout_forces_advance_once (s : TimeoutSt) (h : s.timeout_active = true) :
    COMPLETION_TIMEOUT_SECONDS = 3
    ∧ (timeout_thread_body s).advance = true
    ∧ (timeout_thread_body s).warnings = s.warnings + 1
    ∧ (timeout_thread_body s).timeout_active = false
    ∧ (timeout_thread_body s).completions = s.completions
    ∧ timeout_thread_body (timeout_thread_body s) = timeout_thread_body s := by
  simp [timeout_thread_body, COMPLETION_TIMEOUT_SECONDS, h]

/-- C5 witness: the amended claim evaluated at a concrete armed state. -/
theorem timeout_forces_advance_once_witness :
    COMPLETION_TIMEOUT_SECONDS = 3
    ∧ (timeout_thread_body c5_state).advance = true
    ∧ (timeout_thread_body c5_state).warnings = c5_state.warnings + 1
    ∧ (timeout_thread_body c5_state).timeout_active = false
    ∧ (timeout_thread_body c5_state).completions = c5_state.completions
    ∧ timeout_thread_body (timeout_thread_body c5_state) = timeout_thread_body c5_state :=
  timeout_forces_advance_once c5_state (by decide)

/-- C8 counterexample: a throwing completion handler at the firing site.  The
handler is invoked (the SUCCESS invocation is logged), the exception is
swallowed by the empty catch block, and nothing is converted into a logged
`CALLBACK_EXCEPTION` record — the error log stays empty, contrary to the
claim's "converted into a logged CallbackException". -/
theorem callback_exception_not_logged :
    (fire_completion_callback AudioEngineError.SUCCESS c8_throwing_state).fired_codes
        = [AudioEngineError.SUCCESS]
    ∧ (fire_completion_callback AudioEngineError.SUCCESS c8_throwing_state).logged_errors = []
    ∧ AudioEngineError.CALLBACK_EXCEPTION ∉
        (fire_completion_callback AudioEngineError.SUCCESS c8_throwing_state).logged_errors := by
  decide

/-- C8 (amended): callback-exception containment.  If the registered handler
throws when invoked at the firing site, the exception is caught there and
discarded (the function returns normally, so nothing propagates into the
audio thread, and no error record is written), and the one-shot semantics
still holds: `callback_fired` remains true and no later engine operation of
the Track Session invokes the handler again. -/
theorem callback_exception_contained (s : EngineState) (c : AudioEngineError)
    (hnf : s.callback_fired = false) (hreg : s.cb_registered = true)
    (hthrow : s.cb_throws = true) :
    (fire_completion_callback c s).callback_fired = true
    ∧ (fire_completion_callback c s).fired_codes = s.fired_codes ++ [c]
    ∧ (fire_completion_callback c s).logged_errors = s.logged_errors
    ∧ ∀ ops sF, eng_run (fire_completion_callback c s) ops = some sF →
        sF.fired_codes = (fire_completion_callback c s).fired_codes := by
  rw [fire_completion_callback_eq]
  rw [if_pos ⟨hnf, hreg⟩]
  refine ⟨rfl, by simp, rfl, ?_⟩
  intro ops sF hrun
  exact (eng_run_sticky _ sF ops rfl hrun).2

/-- C8 witness: the amended claim evaluated at the concrete throwing-handler
state. -/
theorem callback_exception_contained_witness :
    (fire_completion_callback AudioEngineError.SUCCESS c8_throwing_state).callback_fired = true
    ∧ (fire_completion_callback AudioEngineError.SUCCESS c8_throwing_state).fired_codes
        = c8_throwing_state.fired_codes ++ [AudioEngineError.SUCCESS]
    ∧ (fire_completion_callback AudioEngineError.SUCCESS c8_throwing_state).logged_errors
        = c8_throwing_state.logged_errors
    ∧ ∀ ops sF,
        eng_run (fire_completion_callback AudioEngineError.SUCCESS c8_throwing_state) ops = some sF →
        sF.fired_codes
          = (fire_completion_callback AudioEngineError.SUCCESS c8_throwing_state).fired_codes :=
  callback_exception_contained c8_throwing_state AudioEngineError.SUCCESS
    (by decide) (by decide) (by decide)

/-- The completion check preserves the one-shot invariant. -/
theorem check_completion_fire_inv (s : EngineState) (h : fire_inv s) :
    fire_inv (check_completion s) := by
  obtain ⟨hreg, hdisj⟩ := h
  unfold check_completion
  split_ifs with hg
  · rw [fire_completion_callback_eq]
    rcases hdisj with ⟨hf, hc⟩ | ⟨hf, hc⟩
    · rw [if_pos ⟨hf, hreg⟩]
      exact ⟨hreg, Or.inr ⟨rfl, by simp [hc]⟩⟩
    · rw [if_neg (by simp [hf])]
      exact ⟨hreg, Or.inr ⟨rfl, hc⟩⟩
  · exact ⟨hreg, hdisj⟩

/-- Every engine step preserves the one-shot invariant. -/
theorem eng_step_fire_inv (s s' : EngineState) (op : EngOp)
    (h : fire_inv s) (hs : eng_step s op = some s') : fire_inv s' := by
  cases op with
  | set_eof_flag =>
    simp only [eng_step, Option.some.injEq] at hs
    subst hs; exact ⟨h.1, h.2⟩
  | drain_check =>
    simp only [eng_step, Option.some.injEq] at hs
    subst hs; exact check_completion_fire_inv s h
  | tick play_cursor b1 b2 =>
    simp only [eng_step, update_buffer] at hs
    split_ifs at hs with hc1 hc2 hc3
    · simp only [Option.some.injEq] at hs
      subst hs; exact check_completion_fire_inv s h
    · simp only [Option.some.injEq] at hs; subst hs; exact ⟨h.1, h.2⟩
    · simp only [Option.some.injEq] at hs; subst hs; exact ⟨h.1, h.2⟩
  | push chunk =>
    simp only [eng_step, write_samples, Option.some.injEq] at hs
    subst hs; exact ⟨h.1, h.2⟩
  | set_vol v =>
    simp only [eng_step, set_volume, Option.some.injEq] at hs
    subst hs; exact ⟨h.1, h.2⟩

/-- Run-level preservation of the one-shot invariant. -/
theorem eng_run_fire_inv (s sF : EngineState) (ops : List EngOp)
    (h : fire_inv s) (hrun : eng_run s ops = some sF) : fire_inv sF := by
  induction ops generalizing s with
  | nil =>
    unfold eng_run at hrun
    injection hrun with hh; subst hh; exact h
  | cons op ops ih =>
    unfold eng_run at hrun
    cases hstep : eng_step s op with
    | none => rw [hstep] at hrun; exact absurd hrun (by simp)
    | some s1 =>
      rw [hstep] at hrun
      exact ih s1 (eng_step_fire_inv s s1 op h hstep) hrun

/-- A trigger step from an invariant state lands in the fired state with the
single SUCCESS invocation recorded. -/
theorem trigger_step_fires (s s' : EngineState) (op : EngOp)
    (h : fire_inv s) (ht : is_trigger s op) (hs : eng_step s op = some s') :
    s'.callback_fired = true ∧ s'.fired_codes = [AudioEngineError.SUCCESS] := by
  obtain ⟨he, hp, hop⟩ := ht
  have hcheck : (check_completion s).callback_fired = true ∧
      (check_completion s).fired_codes = [AudioEngineError.SUCCESS] := by
    unfold check_completion
    rw [if_pos ⟨he, by simp [hp]⟩, fire_completion_callback_eq]
    obtain ⟨hreg, hdisj⟩ := h
    rcases hdisj with ⟨hf, hc⟩ | ⟨hf, hc⟩
    · rw [if_pos ⟨hf, hreg⟩]; simp [hc]
    · rw [if_neg (by simp [hf])]; simp [hc]
  rcases hop with hop | ⟨pc, b1, b2, hop⟩
  · subst hop
    simp only [eng_step, Option.some.injEq] at hs
    subst hs; exact hcheck
  · subst hop
    simp only [eng_step, update_buffer] at hs
    rw [if_pos (by simp [hp])] at hs
    simp only [Option.some.injEq] at hs
    subst hs; exact hcheck

/-- Decomposition of a run across a list append. -/
theorem eng_run_append (s : EngineState) (l1 l2 : List EngOp) :
    eng_run s (l1 ++ l2) = Option.bind (eng_run s l1) (fun s1 => eng_run s1 l2) := by
  induction l1 generalizing s with
  | nil => simp [eng_run]
  | cons op l1 ih =>
    simp only [List.cons_append, eng_run]
    cases eng_step s op with
    | none => simp
    | some s1 => simp [ih s1]

/-- C1: single-fire.  For a Track Session started with a registered callback
(`callback_fired` false, empty invocation log), and for any interleaving of
`signal_eof` stores, locked completion checks, drain ticks and pushes — any
number of threads, any ordering — if at some point a completion trigger
executes (a completion check or a drain tick in a state with EOF signaled and
an empty queue), the completion callback is invoked exactly once over the
whole run: the invocation log ends as exactly one SUCCESS entry.  Every
trigger after the first is a no-op because `callback_fired` is read-and-set
in one atomic exchange. -/
theorem completion_single_fire (s0 sF : EngineState) (ops : List EngOp)
    (hfresh : s0.callback_fired = false ∧ s0.fired_codes = [] ∧ s0.cb_registered = true)
    (hrun : eng_run s0 ops = some sF)
    (htrig : ∃ pre op post s1, ops = pre ++ op :: post ∧
        eng_run s0 pre = some s1 ∧ is_trigger s1 op) :
    sF.fired_codes = [AudioEngineError.SUCCESS] := by
  obtain ⟨pre, op, post, s1, hops, hpre, ht⟩ := htrig
  have hinv0 : fire_inv s0 := ⟨hfresh.2.2, Or.inl ⟨hfresh.1, hfresh.2.1⟩⟩
  have hinv1 : fire_inv s1 := eng_run_fire_inv s0 s1 pre hinv0 hpre
  subst hops
  rw [eng_run_append, hpre] at hrun
  simp only [Option.some_bind] at hrun
  unfold eng_run at hrun
  cases hstep : eng_step s1 op with
  | none => rw [hstep] at hrun; exact absurd hrun (by simp)
  | some s2 =>
    rw [hstep] at hrun
    obtain ⟨hf2, hc2⟩ := trigger_step_fires s1 s2 op hinv1 ht hstep
    have := eng_run_sticky s2 sF post hf2 hrun
    rw [this.2, hc2]

/-- C1 witness: the concrete interleaving `c1_ops` (EOF store, then two
concurrent completion checks) fires exactly once. -/
theorem completion_single_fire_witness :
    eng_run c1_initial c1_ops = some c1_final
    ∧ c1_final.fired_codes = [AudioEngineError.SUCCESS] := by
  refine ⟨by decide, ?_⟩
  exact completion_single_fire c1_initial c1_final c1_ops
    ⟨by decide, by decide, by decide⟩ (by decide)
    ⟨[EngOp.set_eof_flag], EngOp.drain_check, [EngOp.drain_check], c1_mid,
      rfl, by decide, by decide, by decide, Or.inl rfl⟩

/-- C2: duration authority.  For a track with a known positive duration and a
decoder that never hard-fails (after its EOF it keeps reporting
`eof_silence`, per the claim's scenario of EOF before the duration), the
playback loop exits through the duration break — never through decoder EOF —
exactly at the first iteration whose elapsed time has reached the duration:
the exit elapsed time is at least `D`, every chunk was fed strictly before
`D`, every post-EOF feed is a silence chunk of exactly `buf_size` samples,
and the post-loop advancement step (reached with the stop flag unset) then
requests completion, so completion fires at elapsed time at least `D` and not
earlier. -/
theorem duration_authority (D : Nat) (clock : Nat → Nat) (dec : Nat → DecodeStep)
    (buf_size i0 fuel : Nat) (r : LoopExit)
    (hD : 0 < D)
    (hdec : ∀ j, dec j ≠ DecodeStep.failure)
    (hrun : playback_loop_iter D clock dec buf_size i0 fuel = some r) :
    r.by_duration = true
    ∧ D ≤ r.exit_elapsed_ms
    ∧ (∀ ev ∈ r.feeds, ev.elapsed_ms < D)
    ∧ (∀ ev ∈ r.feeds, dec ev.iter = DecodeStep.eof_silence →
        ev.silence = true ∧ ev.size = buf_size)
    ∧ (∀ a, after_loop_advance false a = true) := by
  induction fuel generalizing i0 r with
  | zero => exact absurd hrun (by simp [playback_loop_iter])
  | succ fuel ih =>
    unfold playback_loop_iter at hrun
    split_ifs at hrun with hg
    · injection hrun with hh
      subst hh
      exact ⟨rfl, hg.2, by simp, by simp, fun a => rfl⟩
    · have hlt : clock i0 < D := by
        rcases Nat.lt_or_ge (clock i0) D with h | h
        · exact h
        · exact absurd ⟨hD, h⟩ hg
      cases hd : dec i0 with
      | failure => exact absurd hd (hdec i0)
      | chunk sz =>
        rw [hd] at hrun
        simp only at hrun
        cases hrec : playback_loop_iter D clock dec buf_size (i0 + 1) fuel with
        | none => rw [hrec] at hrun; exact absurd hrun (by simp)
        | some r1 =>
          rw [hrec] at hrun
          injection hrun with hh
          subst hh
          obtain ⟨g1, g2, g3, g4, g5⟩ := ih (i0 + 1) r1 hrec
          refine ⟨g1, g2, ?_, ?_, g5⟩
          · intro ev hev
            rcases List.mem_cons.mp hev with hev | hev
            · subst hev; exact hlt
            · exact g3 ev hev
          · intro ev hev hevd
            rcases List.mem_cons.mp hev with hev | hev
            · subst hev; simp [hd] at hevd
            · exact g4 ev hev hevd
      | eof_silence =>
        rw [hd] at hrun
        simp only at hrun
        cases hrec : playback_loop_iter D clock dec buf_size (i0 + 1) fuel with
        | none => rw [hrec] at hrun; exact absurd hrun (by simp)
        | some r1 =>
          rw [hrec] at hrun
          injection hrun with hh
          subst hh
          obtain ⟨g1, g2, g3, g4, g5⟩ := ih (i0 + 1) r1 hrec
          refine ⟨g1, g2, ?_, ?_, g5⟩
          · intro ev hev
            rcases List.mem_cons.mp hev with hev | hev
            · subst hev; exact hlt
            · exact g3 ev hev
          · intro ev hev hevd
            rcases List.mem_cons.mp hev with hev | hev
            · subst hev; exact ⟨rfl, rfl⟩
            · exact g4 ev hev hevd

/-- C2 witness: duration 30 ms, a decoder at EOF from iteration 1 on, clock
advancing 10 ms per iteration — the loop pads silence and exits via the
duration break at 30 ms. -/
theorem duration_authority_witness :
    0 < 30
    ∧ playback_loop_iter 30 c2_clock c2_dec 100 0 10 = some c2_result
    ∧ (c2_result.by_duration = true
       ∧ 30 ≤ c2_result.exit_elapsed_ms
       ∧ (∀ ev ∈ c2_result.feeds, ev.elapsed_ms < 30)
       ∧ (∀ ev ∈ c2_result.feeds, c2_dec ev.iter = DecodeStep.eof_silence →
           ev.silence = true ∧ ev.size = 100)
       ∧ (∀ a, after_loop_advance false a = true)) := by
  refine ⟨by decide, by decide, ?_⟩
  exact duration_authority 30 c2_clock c2_dec 100 0 10 c2_result (by decide)
    (by intro j; unfold c2_dec; split_ifs <;> simp) (by decide)

/-- Tails of protocol programs are protocol programs. -/
theorem prog_ok_tail {a : Act} {r : List Act} (h : prog_ok (a :: r)) : prog_ok r := by
  rcases h with h | ⟨ch, h⟩
  · exact Or.inl ((List.suffix_cons a r).trans h)
  · exact Or.inr ⟨ch, (List.suffix_cons a r).trans h⟩

/-- A protocol program whose next action is `release` is about to finish. -/
theorem release_prog_empty {r : List Act} (h : prog_ok (Act.release :: r)) :
    r = [] := by
  rcases h with h | ⟨ch, h⟩
  · simp only [signal_eof_prog, checker_prog, List.suffix_cons_iff,
      List.suffix_nil] at h
    simp_all
  · simp only [pusher_prog, List.suffix_cons_iff, List.suffix_nil] at h
    simp_all

/-- After its fire step, a protocol program only releases the lock. -/
theorem fire_prog_shape {r : List Act} (h : prog_ok (Act.fire_step :: r)) :
    r = [Act.release] := by
  rcases h with h | ⟨ch, h⟩
  · simp only [signal_eof_prog, checker_prog, List.suffix_cons_iff,
      List.suffix_nil] at h
    simp_all
  · simp only [pusher_prog, List.suffix_cons_iff, List.suffix_nil] at h
    simp_all

/-- After its push, a pusher only releases the lock — in particular it has no
fire step left. -/
theorem push_prog_shape {ch : List Int} {r : List Act}
    (h : prog_ok (Act.push_act ch :: r)) : r = [Act.release] := by
  rcases h with h | ⟨ch2, h⟩
  · simp only [signal_eof_prog, checker_prog, List.suffix_cons_iff,
      List.suffix_nil] at h
    simp_all
  · simp only [pusher_prog, List.suffix_cons_iff, List.suffix_nil] at h
    simp_all

/-- Lookup after a pointwise thread update. -/
theorem threads_set_lookup (ts : List ThreadSt) (i j : Nat) (t t1 t' : ThreadSt)
    (hti : ts[i]? = some t) (hj : (ts.set i t1)[j]? = some t') :
    (j = i ∧ t' = t1) ∨ (j ≠ i ∧ ts[j]? = some t') := by
  by_cases hij : i = j
  · subst hij
    rw [List.getElem?_set] at hj
    have hlen : i < ts.length := (List.getElem?_eq_some.mp hti).1
    simp only [if_pos rfl, hlen, if_true] at hj
    exact Or.inl ⟨rfl, (Option.some.injEq _ _ ▸ hj).symm⟩
  · rw [List.getElem?_set, if_neg hij] at hj
    exact Or.inr ⟨fun hh => hij hh.symm, hj⟩

/-- One fine-grained action preserves the system invariant. -/
theorem do_act_inv (c c' : Conf) (i : Nat) (t : ThreadSt) (a : Act)
    (rest : List Act) (hinv : conf_inv c) (hti : c.threads[i]? = some t)
    (hprog : t.prog = a :: rest) (hdo : do_act c i t a rest = some c') :
    conf_inv c' := by
  obtain ⟨hlog, hthreads⟩ := hinv
  obtain ⟨hpok, hre, hrem⟩ := hthreads i t hti
  cases a with
  | acquire =>
    simp only [do_act] at hdo
    split_ifs at hdo with hl
    injection hdo with hdo
    subst hdo
    refine ⟨hlog, ?_⟩
    intro j t' hj
    rcases threads_set_lookup c.threads i j t _ t' hti hj with ⟨hji, ht'⟩ | ⟨hji, ht'⟩
    · subst hji; subst ht'
      refine ⟨prog_ok_tail (hprog ▸ hpok), fun h => hre h, ?_⟩
      intro hempty hfire
      have hold := hrem hempty (by rw [hprog]; exact List.mem_cons_of_mem _ hfire)
      rw [hl] at hold
      cases hold.1
    · obtain ⟨pok, he, hem⟩ := hthreads j t' ht'
      refine ⟨pok, he, ?_⟩
      intro hempty hfire
      have hold := hem hempty hfire
      rw [hl] at hold
      cases hold.1
  | release =>
    simp only [do_act] at hdo
    split_ifs at hdo with hl
    injection hdo with hdo
    subst hdo
    have hrest : rest = [] := release_prog_empty (hprog ▸ hpok)
    refine ⟨hlog, ?_⟩
    intro j t' hj
    rcases threads_set_lookup c.threads i j t _ t' hti hj with ⟨hji, ht'⟩ | ⟨hji, ht'⟩
    · subst hji; subst ht'
      refine ⟨prog_ok_tail (hprog ▸ hpok), fun h => hre h, ?_⟩
      intro hempty hfire
      rw [hrest] at hfire
      cases hfire
    · obtain ⟨pok, he, hem⟩ := hthreads j t' ht'
      refine ⟨pok, he, ?_⟩
      intro hempty hfire
      have hold := hem hempty hfire
      rw [hl] at hold
      have : i = j := Option.some.injEq i j ▸ hold.1.symm ▸ rfl
      exact absurd this.symm hji
  | set_eof_store =>
    simp only [do_act] at hdo
    injection hdo with hdo
    subst hdo
    refine ⟨hlog, ?_⟩
    intro j t' hj
    rcases threads_set_lookup c.threads i j t _ t' hti hj with ⟨hji, ht'⟩ | ⟨hji, ht'⟩
    · subst hji; subst ht'
      refine ⟨prog_ok_tail (hprog ▸ hpok), fun _ => rfl, ?_⟩
      intro hempty hfire
      exact hrem hempty (by rw [hprog]; exact List.mem_cons_of_mem _ hfire)
    · obtain ⟨pok, he, hem⟩ := hthreads j t' ht'
      exact ⟨pok, fun _ => rfl, fun hempty hfire => hem hempty hfire⟩
  | read_eof =>
    simp only [do_act] at hdo
    split_ifs at hdo with hl
    injection hdo with hdo
    subst hdo
    refine ⟨hlog, ?_⟩
    intro j t' hj
    rcases threads_set_lookup c.threads i j t _ t' hti hj with ⟨hji, ht'⟩ | ⟨hji, ht'⟩
    · subst hji; subst ht'
      refine ⟨prog_ok_tail (hprog ▸ hpok), fun h => h, ?_⟩
      intro hempty hfire
      exact hrem hempty (by rw [hprog]; exact List.mem_cons_of_mem _ hfire)
    · obtain ⟨pok, he, hem⟩ := hthreads j t' ht'
      exact ⟨pok, he, fun hempty hfire => hem hempty hfire⟩
  | read_empty =>
    simp only [do_act] at hdo
    split_ifs at hdo with hl
    injection hdo with hdo
    subst hdo
    refine ⟨hlog, ?_⟩
    intro j t' hj
    rcases threads_set_lookup c.threads i j t _ t' hti hj with ⟨hji, ht'⟩ | ⟨hji, ht'⟩
    · subst hji; subst ht'
      refine ⟨prog_ok_tail (hprog ▸ hpok), fun h => hre h, ?_⟩
      intro hempty hfire
      exact ⟨hl, List.isEmpty_iff.mp hempty⟩
    · obtain ⟨pok, he, hem⟩ := hthreads j t' ht'
      refine ⟨pok, he, ?_⟩
      intro hempty hfire
      have hold := hem hempty hfire
      rw [hl] at hold
      have : i = j := Option.some.injEq i j ▸ hold.1.symm ▸ rfl
      exact absurd this.symm hji
  | fire_step =>
    simp only [do_act] at hdo
    split_ifs at hdo with hl hg hf
    · -- observation guard true, one-shot exchange won: entry appended
      injection hdo with hdo
      subst hdo
      have hrest : rest = [Act.release] := fire_prog_shape (hprog ▸ hpok)
      have hpend : c.pending = [] :=
        (hrem hg.2 (by rw [hprog]; exact List.mem_cons_self _ _)).2
      have heof : c.eof = true := hre hg.1
      refine ⟨?_, ?_⟩
      · intro pr hpr
        rcases List.mem_append.mp hpr with hpr | hpr
        · exact hlog pr hpr
        · rcases List.mem_singleton.mp hpr with rfl
          rw [heof, hpend]
          rfl
      · intro j t' hj
        rcases threads_set_lookup c.threads i j t _ t' hti hj with ⟨hji, ht'⟩ | ⟨hji, ht'⟩
        · subst hji; subst ht'
          refine ⟨prog_ok_tail (hprog ▸ hpok), fun h => hre h, ?_⟩
          intro hempty hfire
          rw [hrest] at hfire
          simp at hfire
        · obtain ⟨pok, he, hem⟩ := hthreads j t' ht'
          refine ⟨pok, he, ?_⟩
          intro hempty hfire
          have hold := hem hempty hfire
          rw [hl] at hold
          have : i = j := Option.some.injEq i j ▸ hold.1.symm ▸ rfl
          exact absurd this.symm hji
    · -- observation guard true, exchange lost: log unchanged
      injection hdo with hdo
      subst hdo
      have hrest : rest = [Act.release] := fire_prog_shape (hprog ▸ hpok)
      refine ⟨hlog, ?_⟩
      intro j t' hj
      rcases threads_set_lookup c.threads i j t _ t' hti hj with ⟨hji, ht'⟩ | ⟨hji, ht'⟩
      · subst hji; subst ht'
        refine ⟨prog_ok_tail (hprog ▸ hpok), fun h => hre h, ?_⟩
        intro hempty hfire
        rw [hrest] at hfire
        simp at hfire
      · obtain ⟨pok, he, hem⟩ := hthreads j t' ht'
        refine ⟨pok, he, ?_⟩
        intro hempty hfire
        have hold := hem hempty hfire
        rw [hl] at hold
        have : i = j := Option.some.injEq i j ▸ hold.1.symm ▸ rfl
        exact absurd this.symm hji
    · -- observation guard false: no fire
      injection hdo with hdo
      subst hdo
      have hrest : rest = [Act.release] := fire_prog_shape (hprog ▸ hpok)
      refine ⟨hlog, ?_⟩
      intro j t' hj
      rcases threads_set_lookup c.threads i j t _ t' hti hj with ⟨hji, ht'⟩ | ⟨hji, ht'⟩
      · subst hji; subst ht'
        refine ⟨prog_ok_tail (hprog ▸ hpok), fun h => hre h, ?_⟩
        intro hempty hfire
        rw [hrest] at hfire
        simp at hfire
      · obtain ⟨pok, he, hem⟩ := hthreads j t' ht'
        refine ⟨pok, he, ?_⟩
        intro hempty hfire
        have hold := hem hempty hfire
        rw [hl] at hold
        have : i = j := Option.some.injEq i j ▸ hold.1.symm ▸ rfl
        exact absurd this.symm hji
  | push_act chunk =>
    simp only [do_act] at hdo
    split_ifs at hdo with hl
    injection hdo with hdo
    subst hdo
    have hrest : rest = [Act.release] := push_prog_shape (hprog ▸ hpok)
    refine ⟨hlog, ?_⟩
    intro j t' hj
    rcases threads_set_lookup c.threads i j t _ t' hti hj with ⟨hji, ht'⟩ | ⟨hji, ht'⟩
    · subst hji; subst ht'
      refine ⟨prog_ok_tail (hprog ▸ hpok), fun h => hre h, ?_⟩
      intro hempty hfire
      rw [hrest] at hfire
      simp at hfire
    · obtain ⟨pok, he, hem⟩ := hthreads j t' ht'
      refine ⟨pok, he, ?_⟩
      intro hempty hfire
      have hold := hem hempty hfire
      rw [hl] at hold
      have : i = j := Option.some.injEq i j ▸ hold.1.symm ▸ rfl
      exact absurd this.symm hji

/-- One scheduler step preserves the system invariant. -/
theorem conf_step_inv (c c' : Conf) (i : Nat) (hinv : conf_inv c)
    (hstep : conf_step c i = some c') : conf_inv c' := by
  unfold conf_step at hstep
  split at hstep
  · cases hstep
  · rename_i t hti
    split at hstep
    · cases hstep
    · rename_i a rest hprog
      exact do_act_inv c c' i t a rest hinv hti hprog hstep

/-- Whole-schedule preservation of the system invariant. -/
theorem run_sched_inv (c c' : Conf) (sched : List Nat) (hinv : conf_inv c)
    (hrun : run_sched c sched = some c') : conf_inv c' := by
  induction sched generalizing c with
  | nil =>
    unfold run_sched at hrun
    injection hrun with h; subst h; exact hinv
  | cons i sched ih =>
    unfold run_sched at hrun
    cases hstep : conf_step c i with
    | none => rw [hstep] at hrun; cases hrun
    | some c1 =>
      rw [hstep] at hrun
      exact ih c1 (conf_step_inv c c1 i hinv hstep) hrun

/-- The initial configuration satisfies the system invariant. -/
theorem init_conf_inv (n_sig n_chk : Nat) (pushes : List (List Int))
    (pending0 : List Int) : conf_inv (init_conf n_sig n_chk pushes pending0) := by
  refine ⟨by simp [init_conf], ?_⟩
  intro i t hti
  have hmem : t ∈ (init_conf n_sig n_chk pushes pending0).threads :=
    List.getElem?_mem hti
  simp only [init_conf] at hmem
  have hshape : t = init_thread signal_eof_prog ∨ t = init_thread checker_prog ∨
      ∃ ch, t = init_thread (pusher_prog ch) := by
    rcases List.mem_append.mp hmem with h | h
    · rcases List.mem_append.mp h with h | h
      · exact Or.inl (List.eq_of_mem_replicate h)
      · exact Or.inr (Or.inl (List.eq_of_mem_replicate h))
    · rcases List.mem_map.mp h with ⟨ch, hch, hh⟩
      exact Or.inr (Or.inr ⟨ch, hh.symm⟩)
  rcases hshape with rfl | rfl | ⟨ch, rfl⟩
  · exact ⟨Or.inl (List.suffix_refl _),
      fun h => by simp [init_thread] at h,
      fun h _ => by simp [init_thread] at h⟩
  · exact ⟨Or.inl (List.suffix_cons _ _),
      fun h => by simp [init_thread] at h,
      fun h _ => by simp [init_thread] at h⟩
  · exact ⟨Or.inr ⟨ch, List.suffix_refl _⟩,
      fun h => by simp [init_thread] at h,
      fun h _ => by simp [init_thread] at h⟩

/-- C7: atomic observation of the completion predicate.  In the fine-grained
model — where the EOF store, each of the two reads inside `check_completion`,
the one-shot fire and every queue append are separate atomic steps, and
`buffer_mutex` is explicit — every interleaving of any number of `signal_eof`
threads, drain-side completion checks and `write_samples` pushers satisfies:
at the moment the completion callback is actually invoked, `eof_signaled` is
really true and the pending queue is really empty.  The emptiness fact
observed under the lock cannot be invalidated by a refill between the two
checks, because both reads and the fire happen in one lock-guarded critical
section and every queue refill needs the same lock. -/
theorem completion_check_atomic_observation (n_sig n_chk : Nat)
    (pushes : List (List Int)) (pending0 : List Int) (sched : List Nat)
    (c' : Conf)
    (hrun : run_sched (init_conf n_sig n_chk pushes pending0) sched = some c') :
    ∀ pr ∈ c'.fire_log, pr = (true, true) :=
  (run_sched_inv _ c' sched (init_conf_inv n_sig n_chk pushes pending0) hrun).1

/-- C7 witness: the schedule `c7_sched` (a full `signal_eof` call racing a
drain checker and a pusher that have not yet run) reaches `c7_final`, whose
single fire entry observed both facts truthfully. -/
theorem completion_check_atomic_observation_witness :
    run_sched (init_conf 1 1 [[7]] []) c7_sched = some c7_final
    ∧ ∀ pr ∈ c7_final.fire_log, pr = (true, true) := by
  refine ⟨by decide, ?_⟩
  exact completion_check_atomic_observation 1 1 [[7]] [] c7_sched c7_final (by decide)

end Nigamp
